import Mathlib

/-!
# zlistmgr: list management over two sorted text files

A shallow embedding of `main.go`: the line store (`readLines`, `writeLines`), the
in-memory list edits of `addDomain` and `removeDomain` (with the slice aliasing of
`remove`), the search filter and the page window of `getPaginatedList`, and the six
HTTP handlers as functions on the pair of backing files.

Go strings are byte sequences; they are modelled as lists of byte values.
-/

namespace Zlistmgr

/-- A Go `string`: its bytes, in order. -/
abbrev Str := List Nat

/-- The bytes of an ASCII literal (one byte per character). -/
def ascii (s : String) : Str := s.toList.map Char.toNat

/-! ## String order and `sort.Strings` -/

/-- Go's `a <= b` on strings: byte-wise lexicographic, a proper prefix is smaller. -/
def strLe : Str → Str → Bool
  | [], _ => true
  | _ :: _, [] => false
  | a :: as, b :: bs => if a < b then true else if b < a then false else strLe as bs

/-- The relation `a <= b` on strings as a proposition. -/
abbrev StrLE (a b : Str) : Prop := strLe a b = true

/-- Ascending order of a slice of strings. -/
def Ascending (l : List Str) : Prop := l.Pairwise StrLE

instance (l : List Str) : Decidable (Ascending l) := by
  unfold Ascending; infer_instance

/-- Insertion of one string into an ascending slice. -/
def insertSorted (x : Str) : List Str → List Str
  | [] => [x]
  | y :: ys => if strLe x y then x :: y :: ys else y :: insertSorted x ys

/-- The library call `sort.Strings(lines)`: the slice rearranged into ascending order.
The library uses an unstable pattern-defeating quicksort; as equal strings are
identical values, the resulting sequence of values is the unique ascending
rearrangement (see `sortStrings_unique`), which insertion sort computes. -/
def sortStrings (l : List Str) : List Str := l.foldr insertSorted []

/-! ## Line store -/

/-- The contents of a file. -/
abbrev Bytes := List Nat

/-- Errors of the line store: the file cannot be opened, or a line exceeds the
scanner's token limit (`bufio.ErrTooLong`). -/
inductive IOError
  | openFailed
  | tokenTooLong
  deriving DecidableEq, Repr

/-- The constant `bufio.MaxScanTokenSize`: a line of this many bytes or more does not
fit the scanner's buffer. -/
def maxScanTokenSize : Nat := 65536

/-- The helper `dropCR` of `bufio.ScanLines`: one trailing carriage return is dropped. -/
def dropCR (data : Str) : Str :=
  if data.getLast? = some 13 then data.dropLast else data

/-- The loop `for scanner.Scan() { lines = append(lines, scanner.Text()) }` with the
default split function `bufio.ScanLines`, from the point where `cur` holds the bytes
of the current line read so far. Each line ends at a newline byte (the last one may
end at the end of the file, when it is non-empty) and is returned without the
newline and without one trailing carriage return. The flag is `scanner.Err() != nil`:
the scan stops at the first line of `maxScanTokenSize` bytes or more. -/
def scanFrom (cur : Str) : Bytes → List Str × Bool
  | [] =>
    if cur = [] then ([], false)
    else if maxScanTokenSize ≤ cur.length then ([], true)
    else ([dropCR cur], false)
  | b :: rest =>
    if b = 10 then
      if maxScanTokenSize ≤ cur.length then ([], true)
      else (dropCR cur :: (scanFrom [] rest).1, (scanFrom [] rest).2)
    else scanFrom (cur ++ [b]) rest

/-- The lines of a file in file order, and whether the scanner failed. -/
def scanLines (data : Bytes) : List Str × Bool := scanFrom [] data

/-- The function `readLines(filePath)`: `none` is a file that cannot be opened. The lines scanned
are sorted ascending and returned with `scanner.Err()`. -/
def readLines (file : Option Bytes) : List Str × Option IOError :=
  match file with
  | none => ([], some IOError.openFailed)
  | some data =>
    (sortStrings (scanLines data).1,
      if (scanLines data).2 then some IOError.tokenTooLong else none)

/-- The function `writeLines(filePath, lines)`: the new contents of the file, each line followed by
a newline byte (`fmt.Fprintln`). Creating and flushing the file is taken to succeed. -/
def writeLines (lines : List Str) : Bytes :=
  match lines with
  | [] => []
  | line :: rest => line ++ 10 :: writeLines rest

/-- The lines of a file as text, from the point where `cur` holds the bytes of the
current line: a line is the run of bytes before a newline byte, and a non-empty run
after the last newline byte is a last line. -/
def linesFrom (cur : Str) : Bytes → List Str
  | [] => if cur = [] then [] else [cur]
  | b :: rest => if b = 10 then cur :: linesFrom [] rest else linesFrom (cur ++ [b]) rest

/-- The sequence of lines a file holds, in file order. These are the lines the scanner
of `readLines` returns, before it drops a trailing carriage return from each. -/
def fileLines (data : Bytes) : List Str := linesFrom [] data

/-! ## The two backing files -/

/-- The two global path variables. -/
inductive Path
  | blocklistPath
  | allowlistPath
  deriving DecidableEq, Repr

/-- The contents of `data/blocklist.txt` and `data/allowlist.txt`; `none` is a file that
does not exist. -/
structure Files where
  blocklist : Option Bytes
  allowlist : Option Bytes
  deriving DecidableEq, Repr

/-- The file at a path. -/
def Files.get (fs : Files) : Path → Option Bytes
  | Path.blocklistPath => fs.blocklist
  | Path.allowlistPath => fs.allowlist

/-- The files after `os.Create(path)` and writing `data`. -/
def Files.set (fs : Files) (p : Path) (data : Bytes) : Files :=
  match p with
  | Path.blocklistPath => { fs with blocklist := some data }
  | Path.allowlistPath => { fs with allowlist := some data }

/-- The choice of `filePath` that every handler makes from the list name: the
`switch` of `getPaginatedList` and the `if / else if / else` of the other four. -/
def selectPath (list : Str) : Option Path :=
  if list = ascii "blocklist" then some Path.blocklistPath
  else if list = ascii "allowlist" then some Path.allowlistPath
  else none

/-- The pairs of a valid list name and the file it selects. -/
def ValidList (list : Str) (p : Path) : Prop :=
  (list = ascii "blocklist" ∧ p = Path.blocklistPath) ∨
  (list = ascii "allowlist" ∧ p = Path.allowlistPath)

instance (list : Str) (p : Path) : Decidable (ValidList list p) := by
  unfold ValidList; infer_instance

/-! ## In-memory edits -/

/-- The lines `lines = append(lines, request.Domain); sort.Strings(lines)` of
`addDomain`: the sequence handed to `writeLines`. -/
def addLines (lines : List Str) (domain : Str) : List Str :=
  sortStrings (lines ++ [domain])

/-- The index of the first element equal to `s`, as found by the loop of `remove`. -/
def firstIndex (s : Str) : List Str → Option Nat
  | [] => none
  | v :: rest => if v = s then some 0 else (firstIndex s rest).map (· + 1)

/-- The function `remove(slice, s)`. The first component is the slice returned. As
`append(slice[:i], slice[i+1:]...)` writes into the array of `slice`, the second
component is what the caller's `slice` (same array, original length) holds
afterwards: the elements after index `i` moved one place down, the last cell
unchanged. -/
def remove (slice : List Str) (s : Str) : List Str × List Str :=
  match firstIndex s slice with
  | some i =>
    (slice.take i ++ slice.drop (i + 1),
     slice.take i ++ slice.drop (i + 1) ++ slice.drop (slice.length - 1))
  | none => (slice, slice)

/-- The lines `updatedLines := remove(lines, request.Domain); sort.Strings(lines)` of
`removeDomain`: the sequence handed to `writeLines`. `sort.Strings` is applied to
`lines`, whose array `updatedLines` shares, so `updatedLines` is the prefix of its
own length of the sorted array. -/
def removeLines (lines : List Str) (domain : Str) : List Str :=
  (sortStrings (remove lines domain).2).take (remove lines domain).1.length

/-- The number of entries of a list equal to `d`. -/
def occurrences (d : Str) (l : List Str) : Nat := l.countP (fun e => decide (e = d))

/-! ## Search filter -/

/-- The library call `strings.HasPrefix(s, sub)`. -/
def startsWith : Str → Str → Bool
  | _, [] => true
  | [], _ :: _ => false
  | c :: cs, d :: ds => c = d && startsWith cs ds

/-- The library call `strings.Contains(s, substr)`: `substr` occurs in `s` as a contiguous run of bytes. -/
def contains : Str → Str → Bool
  | [], substr => startsWith [] substr
  | c :: cs, substr => startsWith (c :: cs) substr || contains cs substr

/-- Lower-casing of one ASCII byte. -/
def asciiLower (c : Nat) : Nat := if 65 ≤ c ∧ c ≤ 90 then c + 32 else c

/-- The library call `strings.ToLower(s)`. For a string of ASCII bytes the library maps `A`..`Z` to
`a`..`z` byte by byte; for any other string it applies the Unicode case tables
(`strings.Map(unicode.ToLower, s)`), which are taken as the parameter `unicodeLower`. -/
def toLower (unicodeLower : Str → Str) (s : Str) : Str :=
  if s.all (fun c => decide (c < 128)) then s.map asciiLower else unicodeLower s

/-- The search filter of `getPaginatedList`: for a non-empty query, the loop that
appends every item whose lower-case form contains the lower-case query. -/
def filterSearch (unicodeLower : Str → Str) (list : List Str) (searchQuery : Str) :
    List Str :=
  if searchQuery ≠ [] then
    list.foldl
      (fun filteredList item =>
        if contains (toLower unicodeLower item) (toLower unicodeLower searchQuery)
        then filteredList ++ [item] else filteredList)
      []
  else list

/-! ## Page window -/

/-- A Go `int` (64-bit, two's complement): the value an arithmetic result wraps to. -/
def wrapInt (x : Int) : Int := (x + 2 ^ 63) % 2 ^ 64 - 2 ^ 63

/-- The value of a string of decimal digits read after `acc`; `none` at a byte that
is not a digit. -/
def digitsValue (acc : Nat) : Str → Option Nat
  | [] => some acc
  | c :: cs => if 48 ≤ c ∧ c ≤ 57 then digitsValue (acc * 10 + (c - 48)) cs else none

/-- The integer a string denotes in decimal: an optional sign `+` or `-`, then one or
more digits. There is no bound on the value. -/
def decimalValue (s : Str) : Option Int :=
  match s with
  | [] => none
  | 45 :: ds => if ds = [] then none else (digitsValue 0 ds).map (fun n => -(n : Int))
  | 43 :: ds => if ds = [] then none else (digitsValue 0 ds).map (fun n => (n : Int))
  | ds => (digitsValue 0 ds).map (fun n => (n : Int))

/-- The library call `strconv.Atoi(s)`: the decimal value when the string is a decimal integer that
fits a 64-bit `int`; `none` stands for `err != nil` (syntax or range error). -/
def atoi (s : Str) : Option Int :=
  match decimalValue s with
  | some v => if -(2 : Int) ^ 63 ≤ v ∧ v < 2 ^ 63 then some v else none
  | none => none

/-- The constant `pageSize`. -/
def pageSize : Int := 50

/-- The page number used: `page, err := strconv.Atoi(pageStr)` and the default
`if err != nil || page < 1 { page = 1 }`. -/
def pageOf (pageStr : Str) : Int :=
  match atoi pageStr with
  | some page => if page < 1 then 1 else page
  | none => 1

/-- The value of `start` before it is clamped: `(page - 1) * pageSize` in `int`. -/
def startOf (page : Int) : Int := wrapInt (wrapInt (page - 1) * pageSize)

/-- The value of `end` before it is clamped: `start + pageSize` in `int`. -/
def endOf (page : Int) : Int := wrapInt (startOf page + pageSize)

/-- The bounds `start` and `end` after the two clamps against `len(list)`. -/
def pageBounds (len : Nat) (page : Int) : Int × Int :=
  (if startOf page > len then (len : Int) else startOf page,
   if endOf page > len then (len : Int) else endOf page)

/-- The slice expression `list[lo:hi]`: `none` is the run-time panic "slice bounds out
of range". Go checks `hi` against the capacity; here `hi` is checked against the
length, which `getPaginatedList` never exceeds as `end` is clamped to it. -/
def sliceOf (list : List Str) (lo hi : Int) : Option (List Str) :=
  if 0 ≤ lo ∧ lo ≤ hi ∧ hi ≤ list.length then
    some ((list.drop lo.toNat).take (hi.toNat - lo.toNat))
  else none

/-- The pagination part of `getPaginatedList` on the filtered list: the page
(`paginatedList`) and `totalCount`, or `none` when the slice expression panics. -/
def paginate (list : List Str) (pageStr : Str) : Option (List Str × Nat) :=
  (sliceOf list (pageBounds list.length (pageOf pageStr)).1
      (pageBounds list.length (pageOf pageStr)).2).map
    (fun paginatedList => (paginatedList, list.length))

/-! ## HTTP handlers -/

/-- What a handler sends. -/
inductive Body
  | empty
  | message (msg : String)
  | lists (blocklist allowlist : List Str)
  | page (list : List Str) (totalCount : Nat)
  | file (data : Bytes)
  deriving DecidableEq, Repr

/-- The outcome of a handler: a reply with an HTTP status, or a run-time panic of the
handler (the server drops the connection without a reply). -/
inductive Response
  | reply (status : Nat) (body : Body)
  | crash
  deriving DecidableEq, Repr

/-- The constant `http.StatusBadRequest`. -/
def statusBadRequest : Nat := 400

/-- The constant `http.StatusInternalServerError`. -/
def statusInternalServerError : Nat := 500

/-- The constant `http.StatusOK`, the status of a handler that returns without writing one. -/
def statusOK : Nat := 200

/-- Handler of `GET /api/list`. -/
def getList (fs : Files) : Response × Files :=
  match readLines fs.blocklist with
  | (_, some _) =>
    (Response.reply statusInternalServerError (Body.message "Failed to read blocklist"), fs)
  | (blocklist, none) =>
    match readLines fs.allowlist with
    | (_, some _) =>
      (Response.reply statusInternalServerError (Body.message "Failed to read allowlist"), fs)
    | (allowlist, none) =>
      (Response.reply statusOK (Body.lists (sortStrings blocklist) (sortStrings allowlist)), fs)

/-- Handler of `GET /api/paginated-list` with query parameters `list`, `page`, `search`. -/
def getPaginatedList (unicodeLower : Str → Str) (fs : Files)
    (listType pageStr searchQuery : Str) : Response × Files :=
  match selectPath listType with
  | none => (Response.reply statusBadRequest (Body.message "Invalid list type"), fs)
  | some filePath =>
    match readLines (fs.get filePath) with
    | (_, some _) =>
      (Response.reply statusInternalServerError (Body.message "Failed to read file"), fs)
    | (list, none) =>
      match paginate (filterSearch unicodeLower list searchQuery) pageStr with
      | none => (Response.crash, fs)
      | some (paginatedList, totalCount) =>
        (Response.reply statusOK (Body.page paginatedList totalCount), fs)

/-- Handler of `POST /api/add`. The request is the decoded JSON body, the pair of its
`domain` and `list` fields; `none` is a body that does not decode. -/
def addDomain (fs : Files) (request : Option (Str × Str)) : Response × Files :=
  match request with
  | none => (Response.reply statusBadRequest (Body.message "Invalid request"), fs)
  | some (domain, list) =>
    match selectPath list with
    | none => (Response.reply statusBadRequest (Body.message "Invalid list type"), fs)
    | some filePath =>
      match readLines (fs.get filePath) with
      | (_, some _) =>
        (Response.reply statusInternalServerError (Body.message "Failed to read file"), fs)
      | (lines, none) =>
        (Response.reply statusOK Body.empty,
          fs.set filePath (writeLines (addLines lines domain)))

/-- Handler of `POST /api/remove`. -/
def removeDomain (fs : Files) (request : Option (Str × Str)) : Response × Files :=
  match request with
  | none => (Response.reply statusBadRequest (Body.message "Invalid request"), fs)
  | some (domain, list) =>
    match selectPath list with
    | none => (Response.reply statusBadRequest (Body.message "Invalid list type"), fs)
    | some filePath =>
      match readLines (fs.get filePath) with
      | (_, some _) =>
        (Response.reply statusInternalServerError (Body.message "Failed to read file"), fs)
      | (lines, none) =>
        (Response.reply statusOK Body.empty,
          fs.set filePath (writeLines (removeLines lines domain)))

/-- Handler of `GET /api/download`: `http.ServeFile` sends the file, or 404 when it does
not exist. -/
def downloadList (fs : Files) (list : Str) : Response × Files :=
  match selectPath list with
  | none => (Response.reply statusBadRequest (Body.message "Invalid list type"), fs)
  | some filePath =>
    match fs.get filePath with
    | none => (Response.reply 404 (Body.message "404 page not found"), fs)
    | some data => (Response.reply statusOK (Body.file data), fs)

/-- Handler of `POST /api/upload`; `file` is the multipart field `file` of the request,
`none` when the request has none. -/
def uploadList (fs : Files) (list : Str) (file : Option Bytes) : Response × Files :=
  match selectPath list with
  | none => (Response.reply statusBadRequest (Body.message "Invalid list type"), fs)
  | some filePath =>
    match file with
    | none => (Response.reply statusBadRequest (Body.message "Failed to get file"), fs)
    | some data => (Response.reply statusOK Body.empty, fs.set filePath data)

/-! ## Facts about the string order -/

theorem strLe_refl : ∀ a : Str, strLe a a = true
  | [] => rfl
  | a :: as => by simp [strLe, strLe_refl as]

theorem strLe_total : ∀ a b : Str, strLe a b = true ∨ strLe b a = true
  | [], _ => Or.inl rfl
  | _ :: _, [] => Or.inr rfl
  | a :: as, b :: bs => by
    rcases Nat.lt_trichotomy a b with h | h | h
    · left; simp [strLe, h]
    · subst h; simpa [strLe] using strLe_total as bs
    · right; simp [strLe, h]

theorem strLe_antisymm : ∀ a b : Str, strLe a b = true → strLe b a = true → a = b
  | [], [], _, _ => rfl
  | [], _ :: _, _, h => by simp [strLe] at h
  | _ :: _, [], h, _ => by simp [strLe] at h
  | a :: as, b :: bs, h₁, h₂ => by
    rcases Nat.lt_trichotomy a b with h | h | h
    · have : ¬ b < a := by omega
      simp [strLe, h, this] at h₂
    · subst h
      simp [strLe] at h₁ h₂
      rw [strLe_antisymm as bs h₁ h₂]
    · have : ¬ a < b := by omega
      simp [strLe, h, this] at h₁

theorem strLe_trans : ∀ a b c : Str, strLe a b = true → strLe b c = true → strLe a c = true
  | [], _, _, _, _ => rfl
  | _ :: _, [], _, h, _ => by simp [strLe] at h
  | _ :: _, _ :: _, [], _, h => by simp [strLe] at h
  | a :: as, b :: bs, c :: cs, h₁, h₂ => by
    by_cases hab : a < b
    · by_cases hbc : b < c
      · have : a < c := by omega
        simp [strLe, this]
      · by_cases hcb : c < b
        · simp [strLe, hbc, hcb] at h₂
        · have : a < c := by omega
          simp [strLe, this]
    · by_cases hba : b < a
      · simp [strLe, hab, hba] at h₁
      · have hab' : a = b := by omega
        subst hab'
        simp [strLe] at h₁
        by_cases hbc : a < c
        · simp [strLe, hbc]
        · by_cases hcb : c < a
          · simp [strLe, hbc, hcb] at h₂
          · simp [strLe, hbc, hcb] at h₂ ⊢
            exact strLe_trans as bs cs h₁ h₂

/-! ## Facts about `sort.Strings` -/

theorem insertSorted_perm (x : Str) : ∀ l : List Str, (insertSorted x l).Perm (x :: l)
  | [] => List.Perm.refl _
  | y :: ys => by
    unfold insertSorted
    split
    · exact List.Perm.refl _
    · exact ((insertSorted_perm x ys).cons y).trans (List.Perm.swap x y ys)

theorem insertSorted_ascending (x : Str) :
    ∀ l : List Str, Ascending l → Ascending (insertSorted x l)
  | [], _ => by simp [insertSorted, Ascending]
  | y :: ys, h => by
    unfold insertSorted
    have hy := List.pairwise_cons.mp h
    split
    · rename_i hxy
      refine List.pairwise_cons.mpr ⟨?_, h⟩
      intro z hz
      rcases List.mem_cons.mp hz with rfl | hz
      · exact hxy
      · exact strLe_trans _ _ _ hxy (hy.1 z hz)
    · rename_i hxy
      have hyx : strLe y x = true := by
        rcases strLe_total x y with h' | h'
        · exact absurd h' hxy
        · exact h'
      refine List.pairwise_cons.mpr ⟨?_, insertSorted_ascending x ys hy.2⟩
      intro z hz
      rcases List.mem_cons.mp ((insertSorted_perm x ys).subset hz) with rfl | hz
      · exact hyx
      · exact hy.1 z hz

theorem sortStrings_perm : ∀ l : List Str, (sortStrings l).Perm l
  | [] => List.Perm.refl _
  | x :: xs => (insertSorted_perm x (sortStrings xs)).trans ((sortStrings_perm xs).cons x)

theorem sortStrings_ascending : ∀ l : List Str, Ascending (sortStrings l)
  | [] => List.Pairwise.nil
  | x :: xs => insertSorted_ascending x (sortStrings xs) (sortStrings_ascending xs)

/-- An ascending rearrangement of a slice is unique: whatever algorithm the library
uses, `sort.Strings` leaves this sequence. -/
theorem sortStrings_unique (l s : List Str) (hp : s.Perm l) (hs : Ascending s) :
    s = sortStrings l :=
  haveI : IsAntisymm Str StrLE := ⟨strLe_antisymm⟩
  List.eq_of_perm_of_sorted (hp.trans (sortStrings_perm l).symm) hs (sortStrings_ascending l)

theorem sortStrings_of_ascending (l : List Str) (h : Ascending l) : sortStrings l = l :=
  (sortStrings_unique l l (List.Perm.refl _) h).symm

theorem sortStrings_length (l : List Str) : (sortStrings l).length = l.length :=
  (sortStrings_perm l).length_eq

/-! ## Facts about `remove` -/

theorem firstIndex_none (s : Str) : ∀ l : List Str, firstIndex s l = none → s ∉ l
  | [], _ => by simp
  | v :: rest, h => by
    unfold firstIndex at h
    split at h
    · simp at h
    · rename_i hv
      have h' : firstIndex s rest = none := by simpa using h
      have := firstIndex_none s rest h'
      simp [this, Ne.symm hv]

theorem firstIndex_some (s : Str) :
    ∀ (l : List Str) (i : Nat), firstIndex s l = some i →
      s ∈ l ∧ l.take i ++ l.drop (i + 1) = l.erase s
  | [], _, h => by simp [firstIndex] at h
  | v :: rest, i, h => by
    unfold firstIndex at h
    split at h
    · rename_i hv
      have hi : i = 0 := by simpa using h.symm
      subst hi; subst hv
      simp
    · rename_i hv
      cases hj : firstIndex s rest with
      | none => simp [hj] at h
      | some j =>
        have hi : i = j + 1 := by simpa [hj] using h.symm
        subst hi
        obtain ⟨hm, he⟩ := firstIndex_some s rest j hj
        refine ⟨List.mem_cons_of_mem _ hm, ?_⟩
        have hne : (v == s) = false := by simpa using hv
        simp [List.erase_cons, hne, he]

/-- All elements of an ascending slice are at most its last cell. -/
theorem le_last_of_ascending (l : List Str) (h : Ascending l) :
    ∀ a ∈ l, ∀ b ∈ l.drop (l.length - 1), strLe a b = true := by
  intro a ha b hb
  rcases List.eq_nil_or_concat l with hl | ⟨l₀, z, hl⟩
  · subst hl; simp at ha
  · subst hl
    have hb' : b = z := by simpa using hb
    subst hb'
    have h' : Ascending (l₀ ++ [b]) := by simpa using h
    have ha₂ : a ∈ l₀ ∨ a = b := by simpa using ha
    rcases ha₂ with ha' | ha'
    · exact (List.pairwise_append.mp h').2.2 a ha' b (by simp)
    · subst ha'; exact strLe_refl a

/-- On an ascending slice, the sequence `removeDomain` writes is the slice with the
first element equal to the domain erased: sorting the shared array changes nothing. -/
theorem removeLines_eq_erase (l : List Str) (d : Str) (h : Ascending l) :
    removeLines l d = l.erase d := by
  unfold removeLines remove
  cases hi : firstIndex d l with
  | none =>
    have hn := firstIndex_none d l hi
    simp [sortStrings_of_ascending l h, List.erase_of_not_mem hn]
  | some i =>
    obtain ⟨_, he⟩ := firstIndex_some d l i hi
    simp only [he]
    have hasc : Ascending (l.erase d ++ l.drop (l.length - 1)) := by
      refine List.pairwise_append.mpr ⟨h.sublist (List.erase_sublist d l),
        h.sublist (List.drop_sublist _ l), ?_⟩
      intro a ha b hb
      exact le_last_of_ascending l h a (List.mem_of_mem_erase ha) b hb
    rw [sortStrings_of_ascending _ hasc]
    simp

theorem readLines_ascending (file : Option Bytes) : Ascending (readLines file).1 := by
  cases file with
  | none => exact List.Pairwise.nil
  | some data => exact sortStrings_ascending _

theorem selectPath_blocklist : selectPath (ascii "blocklist") = some Path.blocklistPath := by
  decide

theorem selectPath_allowlist : selectPath (ascii "allowlist") = some Path.allowlistPath := by
  decide

theorem selectPath_of_valid {list : Str} {p : Path} (h : ValidList list p) :
    selectPath list = some p := by
  rcases h with ⟨rfl, rfl⟩ | ⟨rfl, rfl⟩
  · exact selectPath_blocklist
  · exact selectPath_allowlist

theorem removeDomain_ok (fs : Files) (list d : Str) (p : Path) (L : List Str)
    (hlist : ValidList list p) (hread : readLines (fs.get p) = (L, none)) :
    removeDomain fs (some (d, list)) =
      (Response.reply statusOK Body.empty, fs.set p (writeLines (removeLines L d))) := by
  simp only [removeDomain, selectPath_of_valid hlist, hread]

theorem addDomain_ok (fs : Files) (list d : Str) (p : Path) (L : List Str)
    (hlist : ValidList list p) (hread : readLines (fs.get p) = (L, none)) :
    addDomain fs (some (d, list)) =
      (Response.reply statusOK Body.empty, fs.set p (writeLines (addLines L d))) := by
  simp only [addDomain, selectPath_of_valid hlist, hread]

/-- C1: for each of the two valid list names, every list `L` returned by reading the
file and every domain `d`, `removeDomain` succeeds and writes back `L` with exactly
the first entry equal to `d` deleted, the other entries in their order; when no entry
equals `d` it writes back `L`. From `["a","a","b"]` removing `"a"` leaves `["a","b"]`. -/
theorem remove_writes_first_match_deleted (fs : Files) (list d : Str) (p : Path)
    (L : List Str) (hlist : ValidList list p) (hread : readLines (fs.get p) = (L, none)) :
    removeDomain fs (some (d, list)) =
        (Response.reply statusOK Body.empty, fs.set p (writeLines (removeLines L d)))
      ∧ (d ∈ L → ∃ l₁ l₂, L = l₁ ++ d :: l₂ ∧ d ∉ l₁ ∧ removeLines L d = l₁ ++ l₂)
      ∧ (d ∉ L → removeLines L d = L)
      ∧ removeLines [ascii "a", ascii "a", ascii "b"] (ascii "a") = [ascii "a", ascii "b"] := by
  have hasc : Ascending L := by
    have := readLines_ascending (fs.get p)
    rwa [hread] at this
  have he := removeLines_eq_erase L d hasc
  refine ⟨removeDomain_ok fs list d p L hlist hread, ?_, ?_, by decide⟩
  · intro hm
    obtain ⟨l₁, l₂, h₁, h₂, h₃⟩ := List.exists_erase_eq hm
    exact ⟨l₁, l₂, h₂, h₁, he.trans h₃⟩
  · intro hm
    rw [he, List.erase_of_not_mem hm]

/-- Witness of C1: the blocklist file `a, a, b` and the domain `a`. -/
theorem remove_writes_first_match_deleted_witness :
    ValidList (ascii "blocklist") Path.blocklistPath
      ∧ readLines ((Files.mk (some (ascii "a\na\nb\n")) none).get Path.blocklistPath)
          = ([ascii "a", ascii "a", ascii "b"], none)
      ∧ removeDomain (Files.mk (some (ascii "a\na\nb\n")) none)
          (some (ascii "a", ascii "blocklist"))
          = (Response.reply statusOK Body.empty,
              (Files.mk (some (ascii "a\na\nb\n")) none).set Path.blocklistPath
                (writeLines (removeLines [ascii "a", ascii "a", ascii "b"] (ascii "a")))) :=
  ⟨by decide, by decide,
    (remove_writes_first_match_deleted (Files.mk (some (ascii "a\na\nb\n")) none)
      (ascii "blocklist") (ascii "a") Path.blocklistPath
      [ascii "a", ascii "a", ascii "b"] (by decide) (by decide)).1⟩

/-! ## Facts about the scanner and the round trip through a file -/

theorem dropCR_length_le (e : Str) : (dropCR e).length ≤ e.length := by
  unfold dropCR
  split
  · simp
  · exact Nat.le_refl _

theorem dropCR_not_mem (e : Str) (h : 10 ∉ e) : 10 ∉ dropCR e := by
  unfold dropCR
  split
  · exact fun hm => h ((List.dropLast_sublist e).subset hm)
  · exact h

theorem dropCR_of_no_cr (e : Str) (h : e.getLast? ≠ some 13) : dropCR e = e := by
  simp [dropCR, h]

theorem dropCR_eq (e d : Str) (h : dropCR e = d) : e = d ∨ e = d ++ [13] := by
  unfold dropCR at h
  split at h
  · rename_i hl
    right
    rw [← h]
    exact (List.dropLast_append_getLast? 13 hl).symm
  · exact Or.inl h

theorem scanFrom_append (e : Str) (h : 10 ∉ e) :
    ∀ (cur : Str) (rest : Bytes), scanFrom cur (e ++ rest) = scanFrom (cur ++ e) rest := by
  induction e with
  | nil => intro cur rest; simp
  | cons c cs ih =>
    intro cur rest
    have hc : c ≠ 10 := fun hc => h (by simp [hc])
    have hcs : 10 ∉ cs := fun hm => h (List.mem_cons_of_mem _ hm)
    have : scanFrom cur (c :: (cs ++ rest)) = scanFrom (cur ++ [c]) (cs ++ rest) := by
      rw [scanFrom]; simp [hc]
    rw [List.cons_append, this, ih hcs]
    simp

/-- Every line the scanner returns has no newline byte and is shorter than the
token limit. -/
theorem scanFrom_lines :
    ∀ (data : Bytes) (cur : Str), 10 ∉ cur →
      ∀ e ∈ (scanFrom cur data).1, 10 ∉ e ∧ e.length < maxScanTokenSize
  | [], cur, hcur, e, he => by
    unfold scanFrom at he
    split at he
    · simp at he
    · split at he
      · simp at he
      · rename_i hlen
        have : e = dropCR cur := by simpa using he
        subst this
        exact ⟨dropCR_not_mem cur hcur, by have := dropCR_length_le cur; omega⟩
  | b :: rest, cur, hcur, e, he => by
    unfold scanFrom at he
    split at he
    · split at he
      · simp at he
      · rename_i hlen
        rcases List.mem_cons.mp he with rfl | he'
        · exact ⟨dropCR_not_mem cur hcur, by have := dropCR_length_le cur; omega⟩
        · exact scanFrom_lines rest [] (by simp) e he'
    · rename_i hb
      refine scanFrom_lines rest (cur ++ [b]) ?_ e he
      intro hm
      rcases List.mem_append.mp hm with h | h
      · exact hcur h
      · have h10 : 10 = b := by simpa using h
        exact hb h10.symm

/-- Lines without a newline byte and below the token limit are scanned back from the
file `writeLines` produces, each without one trailing carriage return. -/
theorem scanLines_writeLines :
    ∀ W : List Str, (∀ e ∈ W, 10 ∉ e ∧ e.length < maxScanTokenSize) →
      scanLines (writeLines W) = (W.map dropCR, false)
  | [], _ => by simp [scanLines, writeLines, scanFrom]
  | e :: W, h => by
    have he := h e (List.mem_cons_self _ _)
    have ih := scanLines_writeLines W (fun x hx => h x (List.mem_cons_of_mem _ hx))
    unfold scanLines at ih ⊢
    rw [writeLines, scanFrom_append e he.1 [] (10 :: writeLines W), scanFrom]
    have : ¬ maxScanTokenSize ≤ e.length := by omega
    simp [this, ih]

theorem readLines_lines (file : Option Bytes) :
    ∀ e ∈ (readLines file).1, 10 ∉ e ∧ e.length < maxScanTokenSize := by
  intro e he
  cases file with
  | none => simp [readLines] at he
  | some data =>
    have he' : e ∈ (scanLines data).1 := (sortStrings_perm _).subset he
    exact scanFrom_lines data [] (by simp) e he'

/-- Reading back what `writeLines` wrote, for lines that survive the scanner. -/
theorem readLines_writeLines (W : List Str)
    (h : ∀ e ∈ W, 10 ∉ e ∧ e.length < maxScanTokenSize) :
    readLines (some (writeLines W)) = (sortStrings (W.map dropCR), none) := by
  simp [readLines, scanLines_writeLines W h]

theorem Files.get_set (fs : Files) (p : Path) (data : Bytes) :
    (fs.set p data).get p = some data := by
  cases p <;> rfl

theorem addLines_perm (L : List Str) (d : Str) : (addLines L d).Perm (L ++ [d]) :=
  sortStrings_perm _

theorem addLines_ascending (L : List Str) (d : Str) : Ascending (addLines L d) :=
  sortStrings_ascending _

theorem addLines_count (L : List Str) (d : Str) :
    occurrences d (addLines L d) = occurrences d L + 1 := by
  unfold occurrences
  rw [(addLines_perm L d).countP_eq]
  simp

theorem addLines_lines (L : List Str) (d : Str)
    (hL : ∀ e ∈ L, 10 ∉ e ∧ e.length < maxScanTokenSize)
    (hd : 10 ∉ d ∧ d.length < maxScanTokenSize) :
    ∀ e ∈ addLines L d, 10 ∉ e ∧ e.length < maxScanTokenSize := by
  intro e he
  rcases List.mem_append.mp ((addLines_perm L d).subset he) with h | h
  · exact hL e h
  · have : e = d := by simpa using h
    subst this; exact hd

/-- The list read after an add: the written sequence with one trailing carriage
return dropped from each entry, sorted again. -/
theorem readLines_after_add (fs : Files) (list d : Str) (p : Path) (L : List Str)
    (hlist : ValidList list p) (hread : readLines (fs.get p) = (L, none))
    (hd : 10 ∉ d ∧ d.length < maxScanTokenSize) :
    readLines ((addDomain fs (some (d, list))).2.get p) =
      (sortStrings ((addLines L d).map dropCR), none) := by
  have hL : ∀ e ∈ L, 10 ∉ e ∧ e.length < maxScanTokenSize := by
    have := readLines_lines (fs.get p)
    rwa [hread] at this
  rw [addDomain_ok fs list d p L hlist hread, Files.get_set,
    readLines_writeLines _ (addLines_lines L d hL hd)]

theorem count_map_dropCR (L : List Str) (d : Str) (h₁ : d ∉ L) (h₂ : d ++ [13] ∉ L) :
    occurrences d (L.map dropCR) = 0 := by
  unfold occurrences
  rw [List.countP_eq_zero]
  intro x hm
  obtain ⟨e, he, hed⟩ := List.mem_map.mp hm
  simp only [decide_eq_true_eq]
  intro hx
  rw [hx] at hed
  rcases dropCR_eq e d hed with rfl | rfl
  · exact h₁ he
  · exact h₂ he

/-! ## Add -/

theorem occurrences_perm {l₁ l₂ : List Str} (h : l₁.Perm l₂) (d : Str) :
    occurrences d l₁ = occurrences d l₂ := by
  unfold occurrences
  exact h.countP_eq _

/-- After an add of `d` to a list holding neither `d` nor `d` followed by a carriage
return, the list read back holds `d` exactly once. -/
theorem occurrences_after_add (L : List Str) (d : Str) (hcr : d.getLast? ≠ some 13)
    (h₁ : d ∉ L) (h₂ : d ++ [13] ∉ L) :
    occurrences d (sortStrings ((addLines L d).map dropCR)) = 1 := by
  rw [occurrences_perm (sortStrings_perm _) d,
    occurrences_perm ((addLines_perm L d).map dropCR) d]
  have h0 := count_map_dropCR L d h₁ h₂
  unfold occurrences at h0 ⊢
  rw [List.map_append, List.countP_append, h0]
  simp [dropCR_of_no_cr d hcr]

/-- C2 (amended): for each of the two valid list names, every list `L` returned by
reading the file and every domain `d`, `addDomain` succeeds and writes back the
ascending rearrangement of `L` with `d` appended, in which `d` occurs once more than
in `L` (no duplicate check). Adding `"x"` twice to a list that holds neither `"x"` nor
`"x"` followed by a carriage return leaves exactly two occurrences of `"x"`. -/
theorem add_writes_sorted_append (fs : Files) (list d : Str) (p : Path) (L : List Str)
    (hlist : ValidList list p) (hread : readLines (fs.get p) = (L, none)) :
    addDomain fs (some (d, list)) =
        (Response.reply statusOK Body.empty, fs.set p (writeLines (addLines L d)))
      ∧ Ascending (addLines L d)
      ∧ (addLines L d).Perm (L ++ [d])
      ∧ occurrences d (addLines L d) = occurrences d L + 1
      ∧ (ascii "x" ∉ L → ascii "x\r" ∉ L →
          ∃ L₂ : List Str,
            readLines ((addDomain fs (some (ascii "x", list))).2.get p) = (L₂, none)
            ∧ addDomain (addDomain fs (some (ascii "x", list))).2 (some (ascii "x", list)) =
                (Response.reply statusOK Body.empty,
                  (addDomain fs (some (ascii "x", list))).2.set p
                    (writeLines (addLines L₂ (ascii "x"))))
            ∧ occurrences (ascii "x") (addLines L₂ (ascii "x")) = 2) := by
  refine ⟨addDomain_ok fs list d p L hlist hread, addLines_ascending L d,
    addLines_perm L d, addLines_count L d, ?_⟩
  intro h₁ h₂
  have hx : (10 : Nat) ∉ ascii "x" ∧ (ascii "x").length < maxScanTokenSize := by decide
  have hread₂ := readLines_after_add fs list (ascii "x") p L hlist hread hx
  refine ⟨_, hread₂, addDomain_ok _ list (ascii "x") p _ hlist hread₂, ?_⟩
  rw [addLines_count, occurrences_after_add L (ascii "x") (by decide) h₁ h₂]

/-- Witness of C2 (amended): the blocklist file `b, a` and the domain `x`. -/
theorem add_writes_sorted_append_witness :
    ValidList (ascii "blocklist") Path.blocklistPath
      ∧ readLines ((Files.mk (some (ascii "b\na\n")) none).get Path.blocklistPath)
          = ([ascii "a", ascii "b"], none)
      ∧ addDomain (Files.mk (some (ascii "b\na\n")) none)
          (some (ascii "x", ascii "blocklist"))
          = (Response.reply statusOK Body.empty,
              (Files.mk (some (ascii "b\na\n")) none).set Path.blocklistPath
                (writeLines (addLines [ascii "a", ascii "b"] (ascii "x"))))
      ∧ occurrences (ascii "x") (addLines [ascii "a", ascii "b"] (ascii "x"))
          = occurrences (ascii "x") [ascii "a", ascii "b"] + 1 :=
  have h := add_writes_sorted_append (Files.mk (some (ascii "b\na\n")) none)
    (ascii "blocklist") (ascii "x") Path.blocklistPath
    [ascii "a", ascii "b"] (by decide) (by decide)
  ⟨by decide, by decide, h.1, h.2.2.2.1⟩

/-- Counterexample to C2 as stated: the blocklist file holds the single line `x`
followed by two carriage returns, read as the entry `"x\r"`, so the list is without
`"x"`. The first add writes `"x"` and `"x\r"`; the second add reads them back as
`"x"`, `"x"` and writes three occurrences of `"x"`, not two. -/
theorem add_twice_counterexample :
    readLines (some (ascii "x\r\r\n")) = ([ascii "x\r"], none)
      ∧ ascii "x" ∉ [ascii "x\r"]
      ∧ addDomain (Files.mk (some (ascii "x\r\r\n")) none)
          (some (ascii "x", ascii "blocklist"))
          = (Response.reply statusOK Body.empty, Files.mk (some (ascii "x\nx\r\n")) none)
      ∧ readLines (some (ascii "x\nx\r\n")) = ([ascii "x", ascii "x"], none)
      ∧ addDomain (Files.mk (some (ascii "x\nx\r\n")) none)
          (some (ascii "x", ascii "blocklist"))
          = (Response.reply statusOK Body.empty,
              Files.mk (some (writeLines (addLines [ascii "x", ascii "x"] (ascii "x")))) none)
      ∧ occurrences (ascii "x") (addLines [ascii "x", ascii "x"] (ascii "x")) = 3
      ∧ occurrences (ascii "x") (addLines [ascii "x", ascii "x"] (ascii "x")) ≠ 2 := by
  decide

/-! ## Sortedness -/

theorem linesFrom_append (e : Str) (h : 10 ∉ e) :
    ∀ (cur : Str) (rest : Bytes), linesFrom cur (e ++ rest) = linesFrom (cur ++ e) rest := by
  induction e with
  | nil => intro cur rest; simp
  | cons c cs ih =>
    intro cur rest
    have hc : c ≠ 10 := fun hc => h (by simp [hc])
    have hcs : 10 ∉ cs := fun hm => h (List.mem_cons_of_mem _ hm)
    have : linesFrom cur (c :: (cs ++ rest)) = linesFrom (cur ++ [c]) (cs ++ rest) := by
      rw [linesFrom]; simp [hc]
    rw [List.cons_append, this, ih hcs]
    simp

/-- The file `writeLines` produces from entries without a newline byte holds exactly
these entries as its lines, in the order given. -/
theorem fileLines_writeLines :
    ∀ W : List Str, (∀ e ∈ W, 10 ∉ e) → fileLines (writeLines W) = W
  | [], _ => by simp [fileLines, writeLines, linesFrom]
  | e :: W, h => by
    have ih := fileLines_writeLines W (fun x hx => h x (List.mem_cons_of_mem _ hx))
    unfold fileLines at ih ⊢
    rw [writeLines, linesFrom_append e (h e (List.mem_cons_self _ _)) [] (10 :: writeLines W),
      linesFrom]
    simp [ih]

/-- When the scanner does not fail, it returns every line of the file, each without
one trailing carriage return. -/
theorem scanFrom_eq_linesFrom :
    ∀ (data : Bytes) (cur : Str), (scanFrom cur data).2 = false →
      (scanFrom cur data).1 = (linesFrom cur data).map dropCR
  | [], cur, h => by
    unfold scanFrom at h ⊢
    unfold linesFrom
    by_cases hc : cur = []
    · simp [hc]
    · by_cases hl : maxScanTokenSize ≤ cur.length
      · simp [hc, hl] at h
      · simp [hc, hl]
  | b :: rest, cur, h => by
    unfold scanFrom at h ⊢
    unfold linesFrom
    by_cases hb : b = 10
    · by_cases hl : maxScanTokenSize ≤ cur.length
      · simp [hb, hl] at h
      · have h' : (scanFrom [] rest).2 = false := by simpa [hb, hl] using h
        simp [hb, hl, scanFrom_eq_linesFrom rest [] h']
    · have h' : (scanFrom (cur ++ [b]) rest).2 = false := by simpa [hb] using h
      simp [hb, scanFrom_eq_linesFrom rest (cur ++ [b]) h']

theorem removeLines_lines (L : List Str) (d : Str) (hasc : Ascending L)
    (hL : ∀ e ∈ L, 10 ∉ e) : ∀ e ∈ removeLines L d, 10 ∉ e := by
  intro e he
  rw [removeLines_eq_erase L d hasc] at he
  exact hL e (List.mem_of_mem_erase he)

/-- C6 (amended): `readLines` returns the lines it scanned from any file content in
ascending order (all lines of the file, each without one trailing carriage return,
when the scanner does not fail), so reading what `writeLines` wrote from any `M` is
ascending; the sequence a successful add and a successful remove hand to `writeLines`
is ascending, whatever the order of the file before; after a successful remove, and
after a successful add of a domain without a newline byte, the lines of the new file
are exactly that ascending sequence. -/
theorem list_always_sorted (file : Option Bytes) (data : Bytes) (M : List Str)
    (fs : Files) (list d : Str) (p : Path) (L : List Str)
    (hlist : ValidList list p) (hread : readLines (fs.get p) = (L, none)) :
    Ascending (readLines file).1
      ∧ (readLines (some data)).1.Perm (scanLines data).1
      ∧ ((scanLines data).2 = false → (scanLines data).1 = (fileLines data).map dropCR)
      ∧ Ascending (readLines (some (writeLines M))).1
      ∧ (addDomain fs (some (d, list)) =
            (Response.reply statusOK Body.empty, fs.set p (writeLines (addLines L d)))
          ∧ Ascending (addLines L d)
          ∧ (10 ∉ d →
              ((addDomain fs (some (d, list))).2.get p).map fileLines = some (addLines L d)))
      ∧ (removeDomain fs (some (d, list)) =
            (Response.reply statusOK Body.empty, fs.set p (writeLines (removeLines L d)))
          ∧ Ascending (removeLines L d)
          ∧ ((removeDomain fs (some (d, list))).2.get p).map fileLines
              = some (removeLines L d)) := by
  have hasc : Ascending L := by
    have := readLines_ascending (fs.get p)
    rwa [hread] at this
  have hL : ∀ e ∈ L, 10 ∉ e := by
    have := readLines_lines (fs.get p)
    rw [hread] at this
    exact fun e he => (this e he).1
  have hadd := addDomain_ok fs list d p L hlist hread
  have hrem := removeDomain_ok fs list d p L hlist hread
  refine ⟨readLines_ascending file, sortStrings_perm _,
    scanFrom_eq_linesFrom data [], readLines_ascending _,
    ⟨hadd, addLines_ascending L d, ?_⟩, ⟨hrem, ?_, ?_⟩⟩
  · intro hd
    have hW : ∀ e ∈ addLines L d, 10 ∉ e := by
      intro e he
      rcases List.mem_append.mp ((addLines_perm L d).subset he) with h | h
      · exact hL e h
      · have : e = d := by simpa using h
        subst this; exact hd
    rw [hadd, Files.get_set, Option.map_some', fileLines_writeLines _ hW]
  · rw [removeLines_eq_erase L d hasc]
    exact hasc.sublist (List.erase_sublist d L)
  · rw [hrem, Files.get_set, Option.map_some',
      fileLines_writeLines _ (removeLines_lines L d hasc hL)]

/-- Witness of C6 (amended): the allowlist file `c, a, b` (not in order) and the
domain `b`. -/
theorem list_always_sorted_witness :
    ValidList (ascii "allowlist") Path.allowlistPath
      ∧ readLines ((Files.mk none (some (ascii "c\na\nb\n"))).get Path.allowlistPath)
          = ([ascii "a", ascii "b", ascii "c"], none)
      ∧ Ascending (removeLines [ascii "a", ascii "b", ascii "c"] (ascii "b"))
      ∧ Ascending (addLines [ascii "a", ascii "b", ascii "c"] (ascii "b"))
      ∧ ((addDomain (Files.mk none (some (ascii "c\na\nb\n")))
            (some (ascii "b", ascii "allowlist"))).2.get Path.allowlistPath).map fileLines
          = some (addLines [ascii "a", ascii "b", ascii "c"] (ascii "b")) :=
  have h := list_always_sorted none [] [] (Files.mk none (some (ascii "c\na\nb\n")))
    (ascii "allowlist") (ascii "b") Path.allowlistPath
    [ascii "a", ascii "b", ascii "c"] (by decide) (by decide)
  ⟨by decide, by decide, h.2.2.2.2.2.2.1, h.2.2.2.2.1.2.1, h.2.2.2.2.1.2.2 (by decide)⟩

/-- Counterexample to C6 as stated: on an empty blocklist file the add of the domain
`"b\na"` (a newline byte inside) succeeds and leaves the file `b`, `a`: its lines,
as text and as the scanner returns them, are not in ascending order. -/
theorem list_always_sorted_counterexample :
    readLines (some []) = ([], none)
      ∧ addDomain (Files.mk (some []) none) (some (ascii "b\na", ascii "blocklist"))
          = (Response.reply statusOK Body.empty, Files.mk (some (ascii "b\na\n")) none)
      ∧ fileLines (ascii "b\na\n") = [ascii "b", ascii "a"]
      ∧ scanLines (ascii "b\na\n") = ([ascii "b", ascii "a"], false)
      ∧ ¬ Ascending [ascii "b", ascii "a"] := by
  decide

/-! ## Remove after add -/

/-- C10: for every ascending list `L` and every domain `d`, the computation of
`removeDomain` applied to the sequence `addDomain` produces from `L` and `d` gives
back exactly `L`, also when `L` already holds `d`. -/
theorem remove_undoes_add (L : List Str) (d : Str) (h : Ascending L) :
    removeLines (addLines L d) d = L := by
  rw [removeLines_eq_erase _ d (addLines_ascending L d)]
  have hp : ((addLines L d).erase d).Perm L := by
    have hm : d ∈ addLines L d := (addLines_perm L d).symm.subset (by simp)
    have h₁ : (addLines L d).Perm (d :: L) :=
      (addLines_perm L d).trans (List.perm_append_comm : (L ++ [d]).Perm ([d] ++ L))
    obtain ⟨l₁, l₂, _, hsplit, herase⟩ := List.exists_erase_eq hm
    rw [herase]
    rw [hsplit] at h₁
    exact (List.perm_middle.symm.trans h₁).cons_inv
  have ha : Ascending ((addLines L d).erase d) :=
    (addLines_ascending L d).sublist (List.erase_sublist d _)
  haveI : IsAntisymm Str StrLE := ⟨strLe_antisymm⟩
  exact List.eq_of_perm_of_sorted hp ha h

/-- Witness of C10: the list `a, x, x` and the domain `x`. -/
theorem remove_undoes_add_witness :
    Ascending [ascii "a", ascii "x", ascii "x"]
      ∧ removeLines (addLines [ascii "a", ascii "x", ascii "x"] (ascii "x")) (ascii "x")
          = [ascii "a", ascii "x", ascii "x"] :=
  ⟨by decide, remove_undoes_add [ascii "a", ascii "x", ascii "x"] (ascii "x") (by decide)⟩

/-! ## Add, then list -/

/-- A written line of `maxScanTokenSize` bytes or more makes the scanner fail on the
file: the bound on the length of an entry cannot be dropped. -/
theorem scanLines_writeLines_too_long :
    ∀ W : List Str, (∀ e ∈ W, 10 ∉ e) → (∃ e ∈ W, maxScanTokenSize ≤ e.length) →
      (scanLines (writeLines W)).2 = true
  | [], _, h => by simp at h
  | e :: W, hnl, hlong => by
    unfold scanLines
    rw [writeLines, scanFrom_append e (hnl e (List.mem_cons_self _ _)) [] (10 :: writeLines W),
      scanFrom]
    by_cases hlen : maxScanTokenSize ≤ e.length
    · simp [hlen]
    · have hrest : ∃ x ∈ W, maxScanTokenSize ≤ x.length := by
        obtain ⟨x, hx, hxl⟩ := hlong
        rcases List.mem_cons.mp hx with rfl | hx'
        · exact absurd hxl hlen
        · exact ⟨x, hx', hxl⟩
      have ih := scanLines_writeLines_too_long W
        (fun x hx => hnl x (List.mem_cons_of_mem _ hx)) hrest
      unfold scanLines at ih
      simp [hlen, ih]

/-- C7 (amended): for every prior content of the blocklist file that `readLines` reads
and every domain `d` that has no newline byte, does not end in a carriage return and
is shorter than the scanner's token limit of 65536 bytes, after the add of `d` the
blocklist file read back by `readLines` holds `d` and is ascending, and `getList`
answers with that blocklist when the allowlist file is readable. -/
theorem add_then_list_contains (fs : Files) (d : Str) (L : List Str)
    (hread : readLines fs.blocklist = (L, none))
    (hnl : 10 ∉ d) (hcr : d.getLast? ≠ some 13) (hlen : d.length < maxScanTokenSize) :
    (addDomain fs (some (d, ascii "blocklist"))).1 = Response.reply statusOK Body.empty
      ∧ ∃ B : List Str,
          readLines (addDomain fs (some (d, ascii "blocklist"))).2.blocklist = (B, none)
          ∧ d ∈ B ∧ Ascending B
          ∧ ∀ A : List Str, readLines fs.allowlist = (A, none) →
              getList (addDomain fs (some (d, ascii "blocklist"))).2 =
                (Response.reply statusOK (Body.lists B A),
                  (addDomain fs (some (d, ascii "blocklist"))).2) := by
  have hv : ValidList (ascii "blocklist") Path.blocklistPath := Or.inl ⟨rfl, rfl⟩
  have hread' : readLines (fs.get Path.blocklistPath) = (L, none) := hread
  have hok := addDomain_ok fs (ascii "blocklist") d Path.blocklistPath L hv hread'
  have hback := readLines_after_add fs (ascii "blocklist") d Path.blocklistPath L hv hread'
    ⟨hnl, hlen⟩
  have hback' : readLines (addDomain fs (some (d, ascii "blocklist"))).2.blocklist =
      (sortStrings ((addLines L d).map dropCR), none) := hback
  refine ⟨by rw [hok], _, hback', ?_, sortStrings_ascending _, ?_⟩
  · refine (sortStrings_perm _).symm.subset ?_
    refine List.mem_map.mpr ⟨d, (addLines_perm L d).symm.subset (by simp), ?_⟩
    exact dropCR_of_no_cr d hcr
  · intro A hA
    have hallow : (addDomain fs (some (d, ascii "blocklist"))).2.allowlist = fs.allowlist := by
      rw [hok]; rfl
    have hAasc : Ascending A := by
      have := readLines_ascending fs.allowlist
      rwa [hA] at this
    simp only [getList, hback', hallow, hA]
    rw [sortStrings_of_ascending _ (sortStrings_ascending _), sortStrings_of_ascending A hAasc]

/-- Witness of C7 (amended): the blocklist file `b, a` and the domain `evil.com`. -/
theorem add_then_list_contains_witness :
    readLines (Files.mk (some (ascii "b\na\n")) (some [])).blocklist
        = ([ascii "a", ascii "b"], none)
      ∧ (10 : Nat) ∉ ascii "evil.com"
      ∧ (ascii "evil.com").getLast? ≠ some 13
      ∧ (ascii "evil.com").length < maxScanTokenSize
      ∧ (addDomain (Files.mk (some (ascii "b\na\n")) (some []))
          (some (ascii "evil.com", ascii "blocklist"))).1
          = Response.reply statusOK Body.empty :=
  ⟨by decide, by decide, by decide, by decide,
    (add_then_list_contains (Files.mk (some (ascii "b\na\n")) (some []))
      (ascii "evil.com") [ascii "a", ascii "b"]
      (by decide) (by decide) (by decide) (by decide)).1⟩

/-- Counterexample to C7 as stated: on empty files the add of the domain `"a\nb"`
(a newline byte inside) succeeds and writes the file `a`, `b`; `readLines` and
`getList` give the blocklist `"a"`, `"b"`, which does not hold the domain. Likewise
the domain `"a\r"` is read back as `"a"`. -/
theorem add_then_list_counterexample :
    addDomain (Files.mk (some []) (some [])) (some (ascii "a\nb", ascii "blocklist"))
        = (Response.reply statusOK Body.empty, Files.mk (some (ascii "a\nb\n")) (some []))
      ∧ readLines (some (ascii "a\nb\n")) = ([ascii "a", ascii "b"], none)
      ∧ getList (Files.mk (some (ascii "a\nb\n")) (some []))
        = (Response.reply statusOK (Body.lists [ascii "a", ascii "b"] []),
            Files.mk (some (ascii "a\nb\n")) (some []))
      ∧ ascii "a\nb" ∉ [ascii "a", ascii "b"]
      ∧ addDomain (Files.mk (some []) (some [])) (some (ascii "a\r", ascii "blocklist"))
        = (Response.reply statusOK Body.empty, Files.mk (some (ascii "a\r\n")) (some []))
      ∧ readLines (some (ascii "a\r\n")) = ([ascii "a"], none)
      ∧ ascii "a\r" ∉ [ascii "a"] := by
  decide

/-! ## Search filter -/

theorem startsWith_iff : ∀ s sub : Str, startsWith s sub = true ↔ sub <+: s
  | s, [] => by simp [startsWith]
  | [], d :: ds => by simp [startsWith]
  | c :: cs, d :: ds => by
    simp only [startsWith, Bool.and_eq_true, decide_eq_true_eq, List.cons_prefix_cons,
      startsWith_iff cs ds]
    constructor
    · rintro ⟨h₁, h₂⟩; exact ⟨h₁.symm, h₂⟩
    · rintro ⟨h₁, h₂⟩; exact ⟨h₁.symm, h₂⟩

/-- The call `strings.Contains` holds exactly when the second string is a contiguous part of
the first. -/
theorem contains_iff : ∀ s sub : Str, contains s sub = true ↔ sub <:+: s
  | [], sub => by
    simp only [contains, startsWith_iff, List.prefix_nil, List.infix_nil]
  | c :: cs, sub => by
    simp only [contains, Bool.or_eq_true, startsWith_iff, contains_iff cs sub,
      List.infix_cons_iff]

theorem foldl_filter (P : Str → Bool) :
    ∀ (l acc : List Str),
      l.foldl (fun filteredList item => if P item then filteredList ++ [item] else filteredList)
        acc = acc ++ l.filter P
  | [], acc => by simp
  | x :: xs, acc => by
    rw [List.foldl_cons, foldl_filter P xs]
    by_cases h : P x
    · simp [h]
    · simp [h]

theorem filterSearch_eq (u : Str → Str) (L : List Str) (s : Str) (hs : s ≠ []) :
    filterSearch u L s = L.filter (fun e => contains (toLower u e) (toLower u s)) := by
  unfold filterSearch
  rw [if_pos hs]
  have := foldl_filter (fun e => contains (toLower u e) (toLower u s)) L []
  simpa using this

/-- C4: for every ascending list `L` and every non-empty search string `s`, the
filtered list of `getPaginatedList` holds exactly the entries of `L` whose lower-case
form has the lower-case form of `s` as a contiguous part, in the order of `L`; for
the empty search string it is `L`. Searching `"EX"` in `example.com`, `other.net`
gives `example.com`. -/
theorem search_filter (u : Str → Str) (L : List Str) (s : Str)
    (hL : Ascending L) (hs : s ≠ []) :
    filterSearch u L s = L.filter (fun e => decide (toLower u s <:+: toLower u e))
      ∧ (∀ e, e ∈ filterSearch u L s ↔ e ∈ L ∧ toLower u s <:+: toLower u e)
      ∧ (filterSearch u L s).Sublist L
      ∧ Ascending (filterSearch u L s)
      ∧ filterSearch u L [] = L
      ∧ filterSearch u [ascii "example.com", ascii "other.net"] (ascii "EX")
          = [ascii "example.com"] := by
  have heq : filterSearch u L s = L.filter (fun e => decide (toLower u s <:+: toLower u e)) := by
    rw [filterSearch_eq u L s hs]
    apply List.filter_congr
    intro e _
    rw [Bool.eq_iff_iff, contains_iff]
    simp
  refine ⟨heq, ?_, ?_, ?_, ?_, ?_⟩
  · intro e
    rw [heq, List.mem_filter]
    simp
  · rw [heq]; exact List.filter_sublist _
  · rw [heq]; exact hL.sublist (List.filter_sublist _)
  · simp [filterSearch]
  · rfl

/-- Witness of C4: the search `"o"` in `example.com`, `other.net`, with the identity
for the Unicode case tables. -/
theorem search_filter_witness :
    Ascending [ascii "example.com", ascii "other.net"]
      ∧ ascii "o" ≠ []
      ∧ filterSearch id [ascii "example.com", ascii "other.net"] (ascii "o")
          = [ascii "example.com", ascii "other.net"].filter
              (fun e => decide (toLower id (ascii "o") <:+: toLower id e)) :=
  ⟨by decide, by decide,
    (search_filter id [ascii "example.com", ascii "other.net"] (ascii "o")
      (by decide) (by decide)).1⟩

/-! ## Invalid list names -/

theorem selectPath_invalid (name : Str) (h₁ : name ≠ ascii "blocklist")
    (h₂ : name ≠ ascii "allowlist") : selectPath name = none := by
  simp [selectPath, h₁, h₂]

/-- C5: for every name that is not exactly `blocklist` or `allowlist`, each of the five
operations that take a list name (paginated query, add, remove, download, upload)
answers with HTTP status 400 and leaves both files as they were. -/
theorem invalid_list_rejected (u : Str → Str) (fs : Files)
    (name domain pageStr searchQuery : Str) (file : Option Bytes)
    (h₁ : name ≠ ascii "blocklist") (h₂ : name ≠ ascii "allowlist") :
    getPaginatedList u fs name pageStr searchQuery
        = (Response.reply 400 (Body.message "Invalid list type"), fs)
      ∧ addDomain fs (some (domain, name))
        = (Response.reply 400 (Body.message "Invalid list type"), fs)
      ∧ removeDomain fs (some (domain, name))
        = (Response.reply 400 (Body.message "Invalid list type"), fs)
      ∧ downloadList fs name
        = (Response.reply 400 (Body.message "Invalid list type"), fs)
      ∧ uploadList fs name file
        = (Response.reply 400 (Body.message "Invalid list type"), fs) := by
  have h := selectPath_invalid name h₁ h₂
  simp [getPaginatedList, addDomain, removeDomain, downloadList, uploadList, h,
    statusBadRequest]

/-- Witness of C5: the name `Blocklist` (capital letter) on two non-empty files. -/
theorem invalid_list_rejected_witness :
    ascii "Blocklist" ≠ ascii "blocklist" ∧ ascii "Blocklist" ≠ ascii "allowlist"
      ∧ uploadList (Files.mk (some (ascii "a\n")) (some (ascii "b\n"))) (ascii "Blocklist")
          (some (ascii "c\n"))
        = (Response.reply 400 (Body.message "Invalid list type"),
            Files.mk (some (ascii "a\n")) (some (ascii "b\n")))
      ∧ addDomain (Files.mk (some (ascii "a\n")) (some (ascii "b\n")))
          (some (ascii "c", ascii "Blocklist"))
        = (Response.reply 400 (Body.message "Invalid list type"),
            Files.mk (some (ascii "a\n")) (some (ascii "b\n"))) :=
  have h := invalid_list_rejected id (Files.mk (some (ascii "a\n")) (some (ascii "b\n")))
    (ascii "Blocklist") (ascii "c") [] [] (some (ascii "c\n")) (by decide) (by decide)
  ⟨by decide, by decide, h.2.2.2.2, h.2.1⟩

/-! ## Page window -/

theorem wrapInt_of_range (x : Int) (h₁ : -(2 : Int) ^ 63 ≤ x) (h₂ : x < 2 ^ 63) :
    wrapInt x = x := by
  unfold wrapInt
  norm_num at h₁ h₂ ⊢
  omega

theorem atoi_of_decimal (s : Str) (v : Int) (h : decimalValue s = some v)
    (h₁ : -(2 : Int) ^ 63 ≤ v) (h₂ : v < 2 ^ 63) : atoi s = some v := by
  unfold atoi
  rw [h]
  exact if_pos ⟨h₁, h₂⟩

/-- The page is 1 when the parameter is not a decimal integer or denotes an integer
below 1. -/
theorem pageOf_default (s : Str)
    (h : decimalValue s = none ∨ ∃ v, decimalValue s = some v ∧ v < 1) : pageOf s = 1 := by
  unfold pageOf atoi
  rcases h with h | ⟨v, h, hv⟩
  · simp [h]
  · simp only [h]
    split
    · rename_i page hp
      split at hp
      · have : v = page := by simpa using hp
        subst this; simp [hv]
      · simp at hp
    · rfl

/-- The window of an in-range page: no arithmetic wraps, and the slice expression is
in bounds. -/
theorem sliceOf_pageBounds (F : List Str) (p : Nat) (h₁ : 1 ≤ p) (h₂ : p * 50 < 2 ^ 63) :
    sliceOf F (pageBounds F.length (p : Int)).1 (pageBounds F.length (p : Int)).2
      = some ((F.take (min (p * 50) F.length)).drop ((p - 1) * 50)) := by
  have hs : startOf (p : Int) = ((p - 1) * 50 : Nat) := by
    unfold startOf pageSize
    rw [wrapInt_of_range ((p : Int) - 1) (by norm_num; omega) (by norm_num; omega),
      wrapInt_of_range _ (by norm_num; omega) (by norm_num; omega)]
    omega
  have he : endOf (p : Int) = (p * 50 : Nat) := by
    unfold endOf
    rw [hs]
    unfold pageSize
    rw [wrapInt_of_range _ (by norm_num; omega) (by norm_num; omega)]
    omega
  unfold pageBounds sliceOf
  simp only [hs, he]
  by_cases hlo : ((p - 1) * 50 : Nat) > F.length
  · have hhi : (p * 50 : Nat) > F.length := by omega
    have hlo' : (((p - 1) * 50 : Nat) : Int) > (F.length : Int) := by exact_mod_cast hlo
    have hhi' : ((p * 50 : Nat) : Int) > (F.length : Int) := by exact_mod_cast hhi
    rw [if_pos hlo', if_pos hhi', if_pos (by omega)]
    have hmin : min (p * 50) F.length = F.length := by omega
    have hle : F.length ≤ (p - 1) * 50 := by omega
    rw [hmin, List.take_length, List.drop_eq_nil_of_le hle, Int.toNat_ofNat,
      List.drop_eq_nil_of_le (Nat.le_refl _), List.take_nil]
  · have hlo' : ¬ (((p - 1) * 50 : Nat) : Int) > (F.length : Int) := by
      intro h; exact hlo (by exact_mod_cast h)
    rw [if_neg hlo']
    by_cases hhi : (p * 50 : Nat) > F.length
    · have hhi' : ((p * 50 : Nat) : Int) > (F.length : Int) := by exact_mod_cast hhi
      rw [if_pos hhi', if_pos (by omega)]
      have hmin : min (p * 50) F.length = F.length := by omega
      rw [hmin, List.take_length, Int.toNat_ofNat, Int.toNat_ofNat]
      congr 1
      apply List.take_of_length_le
      rw [List.length_drop]
    · have hhi' : ¬ ((p * 50 : Nat) : Int) > (F.length : Int) := by
        intro h; exact hhi (by exact_mod_cast h)
      rw [if_neg hhi', if_pos (by omega)]
      have hmin : min (p * 50) F.length = p * 50 := by omega
      rw [hmin, Int.toNat_ofNat, Int.toNat_ofNat, List.drop_take]

theorem take_min_length (F : List Str) (n : Nat) : F.take (min n F.length) = F.take n := by
  by_cases h : n ≤ F.length
  · rw [Nat.min_eq_left h]
  · have h' : F.length ≤ n := by omega
    rw [Nat.min_eq_right h', List.take_length, List.take_of_length_le h']

theorem pageOf_of_decimal (s : Str) (p : Nat) (hp : decimalValue s = some (p : Int))
    (h₁ : 1 ≤ p) (h₂ : p * 50 < 2 ^ 63) : pageOf s = (p : Int) := by
  unfold pageOf
  rw [atoi_of_decimal s p hp (by norm_num; omega) (by norm_num; omega)]
  have : ¬ ((p : Int) < 1) := by omega
  simp [this]

theorem paginate_in_range (F : List Str) (s : Str) (p : Nat) (hp : pageOf s = (p : Int))
    (h₁ : 1 ≤ p) (h₂ : p * 50 < 2 ^ 63) :
    paginate F s = some ((F.take (min (p * 50) F.length)).drop ((p - 1) * 50), F.length) := by
  unfold paginate
  rw [hp, sliceOf_pageBounds F p h₁ h₂]
  rfl

theorem paginate_page_one (F : List Str) (s : Str) (hp : pageOf s = 1) :
    paginate F s = some (F.take 50, F.length) := by
  have h := paginate_in_range F s 1 (by simpa using hp) (Nat.le_refl 1) (by norm_num)
  rw [h]
  simp [take_min_length]

theorem getPaginatedList_ok (u : Str → Str) (fs : Files) (list pageStr searchQuery : Str)
    (path : Path) (L page : List Str) (totalCount : Nat)
    (hlist : ValidList list path) (hread : readLines (fs.get path) = (L, none))
    (hpage : paginate (filterSearch u L searchQuery) pageStr = some (page, totalCount)) :
    getPaginatedList u fs list pageStr searchQuery
      = (Response.reply statusOK (Body.page page totalCount), fs) := by
  simp only [getPaginatedList, selectPath_of_valid hlist, hread, hpage]

theorem atoi_out_of_range (s : Str) (p : Nat) (hp : decimalValue s = some (p : Int))
    (h : 2 ^ 63 ≤ p) : atoi s = none := by
  unfold atoi
  rw [hp]
  have h' : (2 : Int) ^ 63 ≤ (p : Int) := by exact_mod_cast h
  have : ¬ (-(2 : Int) ^ 63 ≤ (p : Int) ∧ (p : Int) < 2 ^ 63) :=
    fun hc => absurd hc.2 (not_lt.mpr h')
  exact if_neg this

theorem pageOf_out_of_range (s : Str) (p : Nat) (hp : decimalValue s = some (p : Int))
    (h : 2 ^ 63 ≤ p) : pageOf s = 1 := by
  unfold pageOf
  rw [atoi_out_of_range s p hp h]

/-- C3 (amended): for every filtered list `F` of size `N` and every page number `p ≥ 1`
with `p * 50 < 2 ^ 63`, `getPaginatedList` returns as `list` exactly the entries of
`F` at indices `[(p-1)*50, min(p*50, N))` in order, at most 50 of them, and as
`totalCount` the filtered size `N`; when `(p-1)*50 ≥ N` the list is empty and
`totalCount` is still `N`. A page number of `2 ^ 63` or more does not fit an `int`
and is answered as page 1. -/
theorem page_window (u : Str → Str) (fs : Files) (list pageStr searchQuery : Str)
    (path : Path) (L F : List Str) (p : Nat)
    (hlist : ValidList list path) (hread : readLines (fs.get path) = (L, none))
    (hF : filterSearch u L searchQuery = F)
    (hp : decimalValue pageStr = some (p : Int)) (h₁ : 1 ≤ p) :
    (p * 50 < 2 ^ 63 →
        getPaginatedList u fs list pageStr searchQuery
          = (Response.reply statusOK
              (Body.page ((F.take (min (p * 50) F.length)).drop ((p - 1) * 50)) F.length), fs)
        ∧ ((F.take (min (p * 50) F.length)).drop ((p - 1) * 50)).length ≤ 50
        ∧ (F.length ≤ (p - 1) * 50 →
            (F.take (min (p * 50) F.length)).drop ((p - 1) * 50) = []))
      ∧ (2 ^ 63 ≤ p →
          getPaginatedList u fs list pageStr searchQuery
            = (Response.reply statusOK (Body.page (F.take 50) F.length), fs)) := by
  refine ⟨fun h₂ => ⟨?_, ?_, ?_⟩, fun h₂ => ?_⟩
  · apply getPaginatedList_ok u fs list pageStr searchQuery path L _ _ hlist hread
    rw [hF]
    exact paginate_in_range F pageStr p (pageOf_of_decimal pageStr p hp h₁ h₂) h₁ h₂
  · rw [List.length_drop, List.length_take]
    omega
  · intro h
    apply List.drop_eq_nil_of_le
    rw [List.length_take]
    omega
  · apply getPaginatedList_ok u fs list pageStr searchQuery path L _ _ hlist hread
    rw [hF]
    exact paginate_page_one F pageStr (pageOf_out_of_range pageStr p hp h₂)

/-- Witness of C3 (amended): page 2 of the blocklist file `a`. -/
theorem page_window_witness :
    ValidList (ascii "blocklist") Path.blocklistPath
      ∧ readLines ((Files.mk (some (ascii "a\n")) none).get Path.blocklistPath)
          = ([ascii "a"], none)
      ∧ decimalValue (ascii "2") = some ((2 : Nat) : Int)
      ∧ getPaginatedList id (Files.mk (some (ascii "a\n")) none) (ascii "blocklist")
            (ascii "2") []
          = (Response.reply statusOK
              (Body.page (([ascii "a"].take (min (2 * 50) [ascii "a"].length)).drop
                ((2 - 1) * 50)) [ascii "a"].length),
              Files.mk (some (ascii "a\n")) none) :=
  ⟨by decide, by decide, by decide,
    ((page_window id (Files.mk (some (ascii "a\n")) none) (ascii "blocklist") (ascii "2") []
      Path.blocklistPath [ascii "a"] [ascii "a"] 2 (by decide) (by decide) (by decide)
      (by decide) (by decide)).1 (by norm_num)).1⟩

/-- Counterexample to C3 as stated: the page number 10000000000000000000 does not fit
an `int`, `strconv.Atoi` fails and the page is 1: on the one-entry blocklist the
handler returns that entry, where the window `[(p-1)*50, min(p*50, 1))` is empty. -/
theorem page_window_counterexample :
    decimalValue (ascii "10000000000000000000") = some 10000000000000000000
      ∧ atoi (ascii "10000000000000000000") = none
      ∧ getPaginatedList id (Files.mk (some (ascii "a\n")) none) (ascii "blocklist")
            (ascii "10000000000000000000") []
          = (Response.reply statusOK (Body.page [ascii "a"] 1),
              Files.mk (some (ascii "a\n")) none)
      ∧ ([ascii "a"].take (min (10000000000000000000 * 50) 1)).drop
            ((10000000000000000000 - 1) * 50) = []
      ∧ [ascii "a"] ≠ ([] : List Str) := by
  decide

/-- C8, evaluated at failing inputs: page 184467440737095518 parses as an `int`, and
`(page - 1) * 50` wraps to a negative `start`, which the clamps leave as it is; the
slice expression panics. Page 184467440737095517 gives a `start` in range and an
`end` that wraps to a negative value, below the clamped `start`; it panics too. -/
theorem page_overflow_crash :
    atoi (ascii "184467440737095518") = some 184467440737095518
      ∧ startOf 184467440737095518 = -9223372036854775766
      ∧ pageBounds 1 184467440737095518 = (-9223372036854775766, -9223372036854775716)
      ∧ getPaginatedList id (Files.mk (some (ascii "a\n")) none) (ascii "blocklist")
            (ascii "184467440737095518") []
          = (Response.crash, Files.mk (some (ascii "a\n")) none)
      ∧ atoi (ascii "184467440737095517") = some 184467440737095517
      ∧ pageBounds 1 184467440737095517 = (1, -9223372036854775766)
      ∧ getPaginatedList id (Files.mk (some (ascii "a\n")) none) (ascii "blocklist")
            (ascii "184467440737095517") []
          = (Response.crash, Files.mk (some (ascii "a\n")) none) := by
  decide

/-- C9: for every filtered list `F` and every `page` parameter that is absent (the
empty string), is not a decimal integer, or denotes an integer below 1,
`getPaginatedList` answers as for page 1: the first `min(50, len(F))` entries of `F`
with `totalCount = len(F)`. -/
theorem page_default (u : Str → Str) (fs : Files) (list pageStr searchQuery : Str)
    (path : Path) (L F : List Str)
    (hlist : ValidList list path) (hread : readLines (fs.get path) = (L, none))
    (hF : filterSearch u L searchQuery = F)
    (h : pageStr = [] ∨ decimalValue pageStr = none
      ∨ ∃ v, decimalValue pageStr = some v ∧ v < 1) :
    getPaginatedList u fs list pageStr searchQuery
        = (Response.reply statusOK (Body.page (F.take 50) F.length), fs)
      ∧ getPaginatedList u fs list pageStr searchQuery
        = getPaginatedList u fs list (ascii "1") searchQuery
      ∧ (F.take 50).length = min 50 F.length := by
  have h' : decimalValue pageStr = none ∨ ∃ v, decimalValue pageStr = some v ∧ v < 1 := by
    rcases h with h | h | h
    · left; rw [h]; rfl
    · exact Or.inl h
    · exact Or.inr h
  have hdef := getPaginatedList_ok u fs list pageStr searchQuery path L _ _ hlist hread
    (by rw [hF]; exact paginate_page_one F pageStr (pageOf_default pageStr h'))
  have hone := getPaginatedList_ok u fs list (ascii "1") searchQuery path L _ _ hlist hread
    (by rw [hF]; exact paginate_page_one F (ascii "1") (by decide))
  exact ⟨hdef, hdef.trans hone.symm, List.length_take _ _⟩

/-- Witness of C9: the page parameter `-3` on the blocklist file `b, a`. -/
theorem page_default_witness :
    ValidList (ascii "blocklist") Path.blocklistPath
      ∧ readLines ((Files.mk (some (ascii "b\na\n")) none).get Path.blocklistPath)
          = ([ascii "a", ascii "b"], none)
      ∧ decimalValue (ascii "-3") = some (-3)
      ∧ getPaginatedList id (Files.mk (some (ascii "b\na\n")) none) (ascii "blocklist")
            (ascii "-3") []
          = (Response.reply statusOK
              (Body.page ([ascii "a", ascii "b"].take 50) [ascii "a", ascii "b"].length),
              Files.mk (some (ascii "b\na\n")) none) :=
  ⟨by decide, by decide, by decide,
    (page_default id (Files.mk (some (ascii "b\na\n")) none) (ascii "blocklist") (ascii "-3")
      [] Path.blocklistPath [ascii "a", ascii "b"] [ascii "a", ascii "b"]
      (by decide) (by decide) (by decide)
      (Or.inr (Or.inr ⟨-3, by decide, by decide⟩))).1⟩

end Zlistmgr
